import Mathlib

/-!
Verification of the simple-term-renderer code base: a shallow embedding of
`src/img.rs` (the `Color` and `Image` pixel buffer with its drawing
primitives) and `src/rds.rs` (the `Renderer` facade and the rendering
server's `PushFrame` diff/encode loop), together with theorems settling the
specification claims about them.

Machine integers of the source (`u8` channels, `i32` coordinates, `usize`
indices) are modelled as `Nat`/`Int`; none of the verified operations
perform channel arithmetic or overflow-relevant index arithmetic on the
inputs the claims quantify over, so the embedding is faithful there.
-/

/-- Model of `Color` from `src/img.rs`: three 8-bit channels. The code only
ever compares colors for exact equality and copies them, so `Nat` channels
are a faithful carrier. -/
structure Color where
  r : Nat
  g : Nat
  b : Nat
deriving DecidableEq, Repr

/-- Model of `Color::hex` (`src/img.rs` line 216): extract the three bytes of
a packed `0xRRGGBB` value. -/
def Color.hex (h : Nat) : Color :=
  ⟨(h &&& 0xFF0000) / 0x10000, (h &&& 0xFF00) / 0x100, (h &&& 0xFF) / 1⟩

/-- Model of `Color::rgb` (`src/img.rs` line 206). -/
def Color.rgb (r g b : Nat) : Color := ⟨r, g, b⟩

def Color.BLACK : Color := Color.hex 0x000000

def Color.RED : Color := Color.hex 0xff0000

def Color.GREEN : Color := Color.hex 0x00ff00

def Color.BLUE : Color := Color.hex 0x0000ff

/-- Model of the external `Vec2` integer point type (`i32` coordinates). -/
structure Vec2 where
  x : Int
  y : Int
deriving DecidableEq, Repr

/-- Model of `Image` from `src/img.rs`: a row-major color buffer plus its
size. -/
structure Image where
  data : List Color
  size : Vec2
deriving DecidableEq, Repr

/-- Model of `Image::new` (`src/img.rs` line 251): an all-black `w`×`h`
buffer. -/
def Image.new (w h : Nat) : Image :=
  ⟨List.replicate (w * h) Color.BLACK, ⟨w, h⟩⟩

/-- Model of `Image::is_out_of_range` (`src/img.rs` line 335). -/
def Image.is_out_of_range (img : Image) (p : Vec2) : Prop :=
  p.x < 0 ∨ p.y < 0 ∨ img.size.x ≤ p.x ∨ img.size.y ≤ p.y

instance (img : Image) (p : Vec2) : Decidable (img.is_out_of_range p) := by
  unfold Image.is_out_of_range; infer_instance

/-- Model of the `Index` impl (`src/img.rs` lines 589-600): in-range reads
index the row-major buffer at `x + y*width`, out-of-range reads yield a
reference to `Color::BLACK`. -/
def Image.get (img : Image) (p : Vec2) : Color :=
  if img.is_out_of_range p then Color.BLACK
  else img.data.getD (p.x + p.y * img.size.x).toNat Color.BLACK

/-- Model of the image-mutating effect of the `IndexMut` impl
(`src/img.rs` lines 603-615) followed by an assignment: in-range writes set
the row-major buffer at `x + y*width`; out-of-range writes land in the
`static mut TEMP` cell and leave the buffer untouched. -/
def Image.set (img : Image) (p : Vec2) (c : Color) : Image :=
  if img.is_out_of_range p then img
  else ⟨img.data.set (p.x + p.y * img.size.x).toNat c, img.size⟩

/-- Model of the full `IndexMut` assignment `self[p] = c` from
`src/img.rs` lines 603-615, including the `static mut TEMP` fallback cell:
the result is the updated image together with the updated contents of the
shared `TEMP` cell. An out-of-range write is redirected into `TEMP`. -/
def index_mut_write (img : Image) (temp : Color) (p : Vec2) (c : Color) :
    Image × Color :=
  if img.is_out_of_range p then (img, c)
  else (⟨img.data.set (p.x + p.y * img.size.x).toNat c, img.size⟩, temp)

/-- Well-formedness invariant of `Image` maintained by the code: the buffer
length is `width*height`. -/
def Image.WF (img : Image) : Prop :=
  0 ≤ img.size.x ∧ 0 ≤ img.size.y ∧
    img.data.length = (img.size.x * img.size.y).toNat

instance (img : Image) : Decidable img.WF := by
  unfold Image.WF; infer_instance

theorem Image.new_WF (w h : Nat) : (Image.new w h).WF := by
  refine ⟨by simp [Image.new], by simp [Image.new], ?_⟩
  simp [Image.new]
  omega

@[simp] theorem Image.set_size (img : Image) (p : Vec2) (c : Color) :
    (img.set p c).size = img.size := by
  unfold Image.set; split <;> rfl

theorem Image.set_WF (img : Image) (p : Vec2) (c : Color) (h : img.WF) :
    (img.set p c).WF := by
  unfold Image.WF Image.set at *
  split <;> simp_all

theorem Image.set_data_length (img : Image) (p : Vec2) (c : Color) :
    (img.set p c).data.length = img.data.length := by
  unfold Image.set; split <;> simp

theorem getD_set_self (l : List Color) (i : Nat) (c d : Color)
    (h : i < l.length) : (l.set i c).getD i d = c := by
  rw [List.getD_eq_getElem?_getD, List.getElem?_set_self h]
  rfl

theorem getD_set_ne (l : List Color) (i j : Nat) (c d : Color)
    (h : i ≠ j) : (l.set i c).getD j d = l.getD j d := by
  rw [List.getD_eq_getElem?_getD, List.getElem?_set_ne h,
    ← List.getD_eq_getElem?_getD]

/-- The row-major index of an in-range point is nonnegative. -/
theorem Image.index_nonneg (img : Image) (p : Vec2)
    (hp : ¬ img.is_out_of_range p) : 0 ≤ p.x + p.y * img.size.x := by
  unfold Image.is_out_of_range at hp
  push_neg at hp
  obtain ⟨hpx, hpy, hpx2, hpy2⟩ := hp
  have hw : (0:Int) ≤ img.size.x := le_trans hpx hpx2.le
  have := mul_nonneg hpy hw
  omega

/-- The row-major index of an in-range point is below `width*height`. -/
theorem Image.index_lt (img : Image) (p : Vec2)
    (hp : ¬ img.is_out_of_range p) (hwf : img.WF) :
    (p.x + p.y * img.size.x).toNat < img.data.length := by
  obtain ⟨hx0, hy0, hlen⟩ := hwf
  unfold Image.is_out_of_range at hp
  push_neg at hp
  obtain ⟨hpx, hpy, hpx2, hpy2⟩ := hp
  have hw : (0:Int) ≤ img.size.x := le_trans hpx hpx2.le
  have hkey : p.x + p.y * img.size.x < img.size.x * img.size.y := by
    have h6 : p.y * img.size.x ≤ (img.size.y - 1) * img.size.x :=
      mul_le_mul_of_nonneg_right (by omega) hw
    have h7 : (img.size.y - 1) * img.size.x =
        img.size.x * img.size.y - img.size.x := by ring
    linarith
  have hpos : (0:Int) < img.size.x * img.size.y :=
    lt_of_le_of_lt (Image.index_nonneg img p (by
      unfold Image.is_out_of_range; push_neg; exact ⟨hpx, hpy, hpx2, hpy2⟩)) hkey
  rw [hlen]
  exact (Int.toNat_lt_toNat hpos).mpr hkey

/-- Row-major index injectivity for in-range points. -/
theorem Image.index_inj (img : Image) (p q : Vec2)
    (hp : ¬ img.is_out_of_range p) (hq : ¬ img.is_out_of_range q)
    (hne : p ≠ q) :
    (p.x + p.y * img.size.x).toNat ≠ (q.x + q.y * img.size.x).toNat := by
  have hpnn := Image.index_nonneg img p hp
  have hqnn := Image.index_nonneg img q hq
  unfold Image.is_out_of_range at hp hq
  push_neg at hp hq
  obtain ⟨hpx, hpy, hpx2, hpy2⟩ := hp
  obtain ⟨hqx, hqy, hqx2, hqy2⟩ := hq
  have hw : (0:Int) ≤ img.size.x := le_trans hpx hpx2.le
  intro h
  apply hne
  have hcast : ((p.x + p.y * img.size.x).toNat : Int) =
      ((q.x + q.y * img.size.x).toNat : Int) := by exact_mod_cast h
  rw [Int.toNat_of_nonneg hpnn, Int.toNat_of_nonneg hqnn] at hcast
  have hxy : p.y = q.y := by
    rcases lt_trichotomy p.y q.y with hlt | heq | hgt
    · exfalso
      have h1 : (p.y + 1) * img.size.x ≤ q.y * img.size.x :=
        mul_le_mul_of_nonneg_right (by omega) hw
      have h2 : (p.y + 1) * img.size.x = p.y * img.size.x + img.size.x := by
        ring
      linarith
    · exact heq
    · exfalso
      have h1 : (q.y + 1) * img.size.x ≤ p.y * img.size.x :=
        mul_le_mul_of_nonneg_right (by omega) hw
      have h2 : (q.y + 1) * img.size.x = q.y * img.size.x + img.size.x := by
        ring
      linarith
  have hx : p.x = q.x := by
    rw [hxy] at hcast
    omega
  cases p; cases q; simp_all

theorem Image.set_oob (img : Image) (p : Vec2) (c : Color)
    (hp : img.is_out_of_range p) : img.set p c = img := by
  simp [Image.set, hp]

theorem Image.set_in (img : Image) (p : Vec2) (c : Color)
    (hp : ¬ img.is_out_of_range p) :
    img.set p c = ⟨img.data.set (p.x + p.y * img.size.x).toNat c, img.size⟩ := by
  simp [Image.set, hp]

theorem Image.oob_set_iff (img : Image) (p q : Vec2) (c : Color) :
    (img.set p c).is_out_of_range q ↔ img.is_out_of_range q := by
  unfold Image.is_out_of_range
  rw [Image.set_size]

theorem Image.get_oob (img : Image) (q : Vec2)
    (hq : img.is_out_of_range q) : img.get q = Color.BLACK := by
  simp [Image.get, hq]

theorem Image.get_in (img : Image) (q : Vec2)
    (hq : ¬ img.is_out_of_range q) :
    img.get q = img.data.getD (q.x + q.y * img.size.x).toNat Color.BLACK := by
  simp [Image.get, hq]

/-- Characterization of reads after a write, under the length invariant. -/
theorem Image.get_set (img : Image) (p q : Vec2) (c : Color) (hwf : img.WF) :
    (img.set p c).get q =
      if ¬ img.is_out_of_range p ∧ q = p then c else img.get q := by
  by_cases hp : img.is_out_of_range p
  · rw [Image.set_oob img p c hp, if_neg (by simp [hp])]
  · by_cases hq : img.is_out_of_range q
    · have hq' : (img.set p c).is_out_of_range q :=
        (Image.oob_set_iff img p q c).mpr hq
      have hqp : q ≠ p := fun h => hp (h ▸ hq)
      rw [Image.get_oob _ _ hq', Image.get_oob _ _ hq, if_neg (by simp [hqp])]
    · have hq' : ¬ (img.set p c).is_out_of_range q :=
        fun h => hq ((Image.oob_set_iff img p q c).mp h)
      rw [Image.get_in _ _ hq', Image.set_in img p c hp]
      by_cases hqp : q = p
      · subst hqp
        rw [if_pos ⟨hp, rfl⟩]
        exact getD_set_self _ _ _ _ (Image.index_lt img q hq hwf)
      · rw [if_neg (by simp [hqp]), Image.get_in _ _ hq]
        exact getD_set_ne _ _ _ _ _
          (Ne.symm (Image.index_inj img q p hq hp hqp))

/-- A pixel changed by a write is in range and now holds the written color
(no well-formedness assumption needed). -/
theorem Image.get_set_changed (img : Image) (p q : Vec2) (c : Color)
    (h : (img.set p c).get q ≠ img.get q) :
    ¬ img.is_out_of_range q ∧ (img.set p c).get q = c := by
  by_cases hp : img.is_out_of_range p
  · exact absurd (by rw [Image.set_oob img p c hp]) h
  · by_cases hq : img.is_out_of_range q
    · exfalso
      apply h
      have hq' : (img.set p c).is_out_of_range q :=
        (Image.oob_set_iff img p q c).mpr hq
      rw [Image.get_oob _ _ hq', Image.get_oob _ _ hq]
    · refine ⟨hq, ?_⟩
      have hq' : ¬ (img.set p c).is_out_of_range q :=
        fun hh => hq ((Image.oob_set_iff img p q c).mp hh)
      rw [Image.get_in _ _ hq', Image.set_in img p c hp] at h ⊢
      by_cases hqp : q = p
      · subst hqp
        by_cases hlt : (q.x + q.y * img.size.x).toNat < img.data.length
        · exact getD_set_self _ _ _ _ hlt
        · exfalso
          apply h
          rw [Image.get_in _ _ hq]
          rw [List.getD_eq_getElem?_getD, List.getD_eq_getElem?_getD,
            List.getElem?_set_self']
          have : img.data[(q.x + q.y * img.size.x).toNat]? = none :=
            List.getElem?_eq_none (by omega)
          rw [this]
          rfl
      · exfalso
        apply h
        rw [Image.get_in _ _ hq]
        exact getD_set_ne _ _ _ _ _
          (Ne.symm (Image.index_inj img q p hq hp hqp))

/-- Claim C2: for every pixel buffer of size `w`×`h` and every point `(x,y)`
outside `[0,w)×[0,h)`, an indexed read returns black, and an indexed write
leaves every in-range pixel of the buffer unchanged. -/
theorem claim_C2_oob_read_black_write_noop (img : Image) (p : Vec2) (c : Color)
    (h : img.is_out_of_range p) :
    img.get p = Color.BLACK ∧
      ∀ q : Vec2, ¬ img.is_out_of_range q → (img.set p c).get q = img.get q := by
  refine ⟨Image.get_oob img p h, ?_⟩
  intro q _
  rw [Image.set_oob img p c h]

/-- Witness for C2 at the concrete out-of-range point `(2,2)` of a 2×2
buffer. -/
theorem claim_C2_witness :
    (Image.new 2 2).get ⟨2, 2⟩ = Color.BLACK ∧
      ((Image.new 2 2).set ⟨2, 2⟩ Color.RED).get ⟨0, 1⟩ =
        (Image.new 2 2).get ⟨0, 1⟩ :=
  ⟨(claim_C2_oob_read_black_write_noop (Image.new 2 2) ⟨2, 2⟩ Color.RED
      (by decide)).1,
   (claim_C2_oob_read_black_write_noop (Image.new 2 2) ⟨2, 2⟩ Color.RED
      (by decide)).2 ⟨0, 1⟩ (by decide)⟩

/-- Claim C3 evaluated on the code: the out-of-range write `self[(2,2)] = RED`
on a 2×2 buffer is redirected into the `static mut TEMP` fallback cell —
the shared cell receives the written color (second component), so the write
is not rejected before a memory access, contradicting the claim; only the
image itself is left unchanged. -/
theorem claim_C3_temp_cell_mutated :
    index_mut_write (Image.new 2 2) Color.BLACK ⟨2, 2⟩ Color.RED =
      (Image.new 2 2, Color.RED) := by
  decide

/-- Inner loop of `Image::rect` (`src/img.rs` lines 422-427): iterate
`i` over `0..|s.x|`, writing at `x = p.x + i*dx` and breaking as soon as
`x >= width`. The fuel argument is the remaining iteration count. -/
def rectRowAux (c : Color) (px dx y : Int) : Nat → Int → Image → Image
  | 0, _, img => img
  | n + 1, i, img =>
    if img.size.x ≤ px + i * dx then img
    else rectRowAux c px dx y n (i + 1) (img.set ⟨px + i * dx, y⟩ c)

/-- Outer loop of `Image::rect` (`src/img.rs` lines 419-428): iterate `j`
over `0..|s.y|`, breaking as soon as `y >= height`. -/
def rectColAux (c : Color) (px py dx dy : Int) (sxAbs : Nat) :
    Nat → Int → Image → Image
  | 0, _, img => img
  | n + 1, j, img =>
    if img.size.y ≤ py + j * dy then img
    else rectColAux c px py dx dy sxAbs n (j + 1)
      (rectRowAux c px dx (py + j * dy) sxAbs 0 img)

/-- Model of `Image::rect` (`src/img.rs` lines 401-429): clamp a negative
origin (adjusting the size by `p - 1`), pick step directions from the sign
of the size, then run the two bounded loops. -/
def Image.rect (img : Image) (p s : Vec2) (c : Color) : Image :=
  let px := if p.x < 0 then 0 else p.x
  let sx := if p.x < 0 then s.x + p.x - 1 else s.x
  let py := if p.y < 0 then 0 else p.y
  let sy := if p.y < 0 then s.y + p.y - 1 else s.y
  let dx : Int := if sx > 0 then 1 else -1
  let dy : Int := if sy > 0 then 1 else -1
  rectColAux c px py dx dy sx.natAbs sy.natAbs 0 img

theorem rectRowAux_succ (c : Color) (px dx y : Int) (n : Nat) (i : Int)
    (img : Image) :
    rectRowAux c px dx y (n + 1) i img =
      if img.size.x ≤ px + i * dx then img
      else rectRowAux c px dx y n (i + 1) (img.set ⟨px + i * dx, y⟩ c) := rfl

theorem rectColAux_succ (c : Color) (px py dx dy : Int) (sxAbs n : Nat)
    (j : Int) (img : Image) :
    rectColAux c px py dx dy sxAbs (n + 1) j img =
      if img.size.y ≤ py + j * dy then img
      else rectColAux c px py dx dy sxAbs n (j + 1)
        (rectRowAux c px dx (py + j * dy) sxAbs 0 img) := rfl

theorem rectRowAux_size (c : Color) (px dx y : Int) (n : Nat) (i : Int)
    (img : Image) : (rectRowAux c px dx y n i img).size = img.size := by
  induction n generalizing i img with
  | zero => rfl
  | succ n ih =>
    rw [rectRowAux_succ]
    split
    · rfl
    · rw [ih, Image.set_size]

/-- Evaluation of the inner row loop of `rect((2,2),(-2,-2),c)`: at `y`, the
two iterations visit `x = 2` then `x = 1`, stopping everything at `x = 2`
already if the width is at most 2. -/
theorem rectRow2_eval (c : Color) (y : Int) (im : Image) :
    rectRowAux c 2 (-1) y 2 0 im =
      if im.size.x ≤ 2 then im else (im.set ⟨2, y⟩ c).set ⟨1, y⟩ c := by
  rw [rectRowAux_succ]
  rw [show (2 + 0 * (-1) : Int) = 2 by norm_num,
    show ((0 : Int) + 1) = 1 by norm_num]
  by_cases h : im.size.x ≤ 2
  · rw [if_pos h, if_pos h]
  · rw [if_neg h, if_neg h, rectRowAux_succ]
    rw [show (2 + 1 * (-1) : Int) = 1 by norm_num, Image.set_size]
    rw [if_neg (by omega : ¬ im.size.x ≤ 1)]
    rfl

/-- Evaluation of `rect((2,2),(-2,-2),c)` on an arbitrary buffer: the loops
visit `x ∈ {2,1}` and `y ∈ {2,1}` (step direction `-1` starting at `(2,2)`),
and the `>= extent` checks stop everything as soon as the first visited
coordinate (the largest one) is out of bounds. -/
theorem rect_neg2_eval (img : Image) (c : Color) :
    img.rect ⟨2, 2⟩ ⟨-2, -2⟩ c =
      if img.size.y ≤ 2 then img
      else if img.size.x ≤ 2 then img
      else ((((img.set ⟨2, 2⟩ c).set ⟨1, 2⟩ c).set ⟨2, 1⟩ c).set ⟨1, 1⟩ c) := by
  have hu : img.rect ⟨2, 2⟩ ⟨-2, -2⟩ c = rectColAux c 2 2 (-1) (-1) 2 2 0 img := by
    unfold Image.rect
    norm_num
  rw [hu, rectColAux_succ]
  rw [show (2 + 0 * (-1) : Int) = 2 by norm_num,
    show ((0 : Int) + 1) = 1 by norm_num]
  by_cases h1 : img.size.y ≤ 2
  · rw [if_pos h1, if_pos h1]
  · rw [if_neg h1, if_neg h1, rectRow2_eval]
    by_cases h2 : img.size.x ≤ 2
    · rw [if_pos h2, if_pos h2, rectColAux_succ]
      rw [show (2 + 1 * (-1) : Int) = 1 by norm_num]
      rw [if_neg (by omega : ¬ img.size.y ≤ 1), rectRow2_eval]
      rw [if_pos h2]
      rfl
    · rw [if_neg h2, if_neg h2, rectColAux_succ]
      rw [show (2 + 1 * (-1) : Int) = 1 by norm_num]
      rw [Image.set_size, Image.set_size]
      rw [if_neg (by omega : ¬ img.size.y ≤ 1), rectRow2_eval]
      rw [Image.set_size, Image.set_size]
      rw [if_neg h2]
      rfl

/-- Counterexample to claim C4: on a 4×4 black buffer (at least 2×2),
`rect((2,2),(-2,-2),RED)` leaves `(0,0)` black — the claimed fill region
`(0,0)-(1,1)` is wrong — and instead paints `(2,2)`, which the claim says
lies outside the filled rectangle. -/
theorem claim_C4_counterexample :
    ((Image.new 4 4).rect ⟨2, 2⟩ ⟨-2, -2⟩ Color.RED).get ⟨0, 0⟩ = Color.BLACK ∧
      ((Image.new 4 4).rect ⟨2, 2⟩ ⟨-2, -2⟩ Color.RED).get ⟨2, 2⟩ = Color.RED ∧
      Color.BLACK ≠ Color.RED := by
  decide

/-- Claim C4, amended: on every well-formed buffer, `rect((2,2),(-2,-2),c)`
fills exactly the rectangle spanning `(1,1)`-`(2,2)` inclusive — negative
size components do flip the fill direction, but the covered cells run from
`p+s+1` up to `p` (not from `p+s` to `p-1` as claimed), no clamping at 0 is
involved at this input, and because the far-edge stop tests the largest
coordinate first, nothing at all is painted when either buffer dimension is
at most 2 (in particular on an exactly 2×2 buffer). -/
theorem claim_C4_amended (img : Image) (c : Color) (q : Vec2)
    (hwf : img.WF) :
    (img.rect ⟨2, 2⟩ ⟨-2, -2⟩ c).get q =
      if 2 < img.size.x ∧ 2 < img.size.y ∧
          (q.x = 1 ∨ q.x = 2) ∧ (q.y = 1 ∨ q.y = 2) then c
      else img.get q := by
  rw [rect_neg2_eval]
  by_cases h1 : img.size.y ≤ 2
  · rw [if_pos h1, if_neg (by omega)]
  · rw [if_neg h1]
    by_cases h2 : img.size.x ≤ 2
    · rw [if_pos h2, if_neg (by omega)]
    · rw [if_neg h2]
      have w1 := Image.set_WF img ⟨2, 2⟩ c hwf
      have w2 := Image.set_WF _ ⟨1, 2⟩ c w1
      have w3 := Image.set_WF _ ⟨2, 1⟩ c w2
      rw [Image.get_set _ _ _ _ w3, Image.get_set _ _ _ _ w2,
        Image.get_set _ _ _ _ w1, Image.get_set _ _ _ _ hwf]
      simp only [Image.oob_set_iff]
      have hin : ∀ a b : Int, (a = 1 ∨ a = 2) → (b = 1 ∨ b = 2) →
          ¬ img.is_out_of_range ⟨a, b⟩ := by
        intro a b ha hb
        simp only [Image.is_out_of_range]
        rcases ha with ha | ha <;> rcases hb with hb | hb <;> subst ha <;>
          subst hb <;> push_neg <;> refine ⟨by omega, by omega, by omega, by omega⟩
      rcases q with ⟨qx, qy⟩
      by_cases e11 : qx = 1 ∧ qy = 1
      · obtain ⟨ex, ey⟩ := e11
        subst ex; subst ey
        rw [if_pos ⟨hin 1 1 (Or.inl rfl) (Or.inl rfl), rfl⟩,
          if_pos ⟨by omega, by omega, Or.inl rfl, Or.inl rfl⟩]
      · by_cases e21 : qx = 2 ∧ qy = 1
        · obtain ⟨ex, ey⟩ := e21
          subst ex; subst ey
          rw [if_neg (by simp [Vec2.mk.injEq]),
            if_pos ⟨hin 2 1 (Or.inr rfl) (Or.inl rfl), rfl⟩,
            if_pos ⟨by omega, by omega, Or.inr rfl, Or.inl rfl⟩]
        · by_cases e12 : qx = 1 ∧ qy = 2
          · obtain ⟨ex, ey⟩ := e12
            subst ex; subst ey
            rw [if_neg (by simp [Vec2.mk.injEq]),
              if_neg (by simp [Vec2.mk.injEq]),
              if_pos ⟨hin 1 2 (Or.inl rfl) (Or.inr rfl), rfl⟩,
              if_pos ⟨by omega, by omega, Or.inl rfl, Or.inr rfl⟩]
          · by_cases e22 : qx = 2 ∧ qy = 2
            · obtain ⟨ex, ey⟩ := e22
              subst ex; subst ey
              rw [if_neg (by simp [Vec2.mk.injEq]),
                if_neg (by simp [Vec2.mk.injEq]),
                if_neg (by simp [Vec2.mk.injEq]),
                if_pos ⟨hin 2 2 (Or.inr rfl) (Or.inr rfl), rfl⟩,
                if_pos ⟨by omega, by omega, Or.inr rfl, Or.inr rfl⟩]
            · rw [if_neg (by simp [Vec2.mk.injEq]; omega),
                if_neg (by simp [Vec2.mk.injEq]; omega),
                if_neg (by simp [Vec2.mk.injEq]; omega),
                if_neg (by simp [Vec2.mk.injEq]; omega),
                if_neg (by simp only [not_and]; intro _ _; omega)]

/-- Witness for the amended C4 at a concrete 4×4 buffer and probe point. -/
theorem claim_C4_amended_witness :
    ((Image.new 4 4).rect ⟨2, 2⟩ ⟨-2, -2⟩ Color.BLUE).get ⟨1, 2⟩ =
      if 2 < (Image.new 4 4).size.x ∧ 2 < (Image.new 4 4).size.y ∧
          ((1 : Int) = 1 ∨ (1 : Int) = 2) ∧ ((2 : Int) = 1 ∨ (2 : Int) = 2)
        then Color.BLUE
      else (Image.new 4 4).get ⟨1, 2⟩ :=
  claim_C4_amended (Image.new 4 4) Color.BLUE ⟨1, 2⟩ (Image.new_WF 4 4)

/-- The four glyphs a cell can display (`src/rds.rs` lines 221-229): blank
space, lower half-block, upper half-block, full block. -/
inductive Glyph where
  | blank : Glyph
  | lower : Glyph
  | upper : Glyph
  | full : Glyph
deriving DecidableEq, Repr

/-- Output tokens of the rendering server's `PushFrame` handler
(`src/rds.rs` lines 179-234): the cursor-home escape, foreground and
background truecolor escapes, absolute cursor-position escapes, and the
four half-block glyphs. -/
inductive Tok where
  | home : Tok
  | fg : Color → Tok
  | bg : Color → Tok
  | jump : Int → Int → Tok
  | glyph : Glyph → Tok
deriving DecidableEq, Repr

/-- Expressibility of a pixel color by the currently active terminal
colors: the pixel equals the active foreground or the active background. -/
def exprOK (c f b : Color) : Prop := c = f ∨ c = b

instance (c f b : Color) : Decidable (exprOK c f b) := by
  unfold exprOK; infer_instance

/-- Model of the color-resolution chain of the `PushFrame` handler
(`src/rds.rs` lines 196-213): given active `fore`/`back` and the cell's top
pixel `p1` and bottom pixel `p2`, return the new `(fore, back)` pair and
the color escapes printed, in print order. -/
def updateColors (f b p1 p2 : Color) : Color × Color × List Tok :=
  if p1 ≠ b ∧ p1 ≠ f ∧ p2 = b then (p1, b, [Tok.fg p1])
  else if p1 ≠ b ∧ p1 ≠ f ∧ p2 = f then (f, p1, [Tok.bg p1])
  else if p2 ≠ b ∧ p2 ≠ f ∧ p1 = b then (p2, b, [Tok.fg p2])
  else if p2 ≠ b ∧ p2 ≠ f ∧ p1 = f then (f, p2, [Tok.bg p2])
  else if p1 ≠ b ∧ p1 ≠ f ∧ p2 ≠ b ∧ p2 ≠ f then
    (p1, p2, [Tok.fg p1, Tok.bg p2])
  else (f, b, [])

/-- Model of the glyph-selection chain of the `PushFrame` handler
(`src/rds.rs` lines 221-229): an `if/else if` chain with no final `else`,
so it prints nothing (`none`) when no condition matches. -/
def glyphFor (f b p1 p2 : Color) : Option Glyph :=
  if p1 = b ∧ p2 = b then some Glyph.blank
  else if p1 = b ∧ p2 = f then some Glyph.lower
  else if p1 = f ∧ p2 = b then some Glyph.upper
  else if p1 = f ∧ p2 = f then some Glyph.full
  else none

/-- Exact case analysis of `updateColors`, matching the effective guard of
each branch of the source chain. -/
theorem updateColors_cases (f b p1 p2 : Color) :
    (exprOK p1 f b ∧ exprOK p2 f b →
      updateColors f b p1 p2 = (f, b, [])) ∧
    (¬ exprOK p1 f b ∧ p2 = b →
      updateColors f b p1 p2 = (p1, b, [Tok.fg p1])) ∧
    (¬ exprOK p1 f b ∧ p2 ≠ b ∧ p2 = f →
      updateColors f b p1 p2 = (f, p1, [Tok.bg p1])) ∧
    (¬ exprOK p2 f b ∧ p1 = b →
      updateColors f b p1 p2 = (p2, b, [Tok.fg p2])) ∧
    (¬ exprOK p2 f b ∧ p1 ≠ b ∧ p1 = f →
      updateColors f b p1 p2 = (f, p2, [Tok.bg p2])) ∧
    (¬ exprOK p1 f b ∧ ¬ exprOK p2 f b →
      updateColors f b p1 p2 = (p1, p2, [Tok.fg p1, Tok.bg p2])) := by
  refine ⟨?_, ?_, ?_, ?_, ?_, ?_⟩
  · rintro ⟨h1, h2⟩
    unfold exprOK at h1 h2
    unfold updateColors
    rw [if_neg (by tauto), if_neg (by tauto), if_neg (by tauto),
      if_neg (by tauto), if_neg (by tauto)]
  · rintro ⟨h1, h2⟩
    unfold exprOK at h1
    push_neg at h1
    unfold updateColors
    rw [if_pos ⟨h1.2, h1.1, h2⟩]
  · rintro ⟨h1, h2, h3⟩
    unfold exprOK at h1
    push_neg at h1
    unfold updateColors
    rw [if_neg (by tauto), if_pos ⟨h1.2, h1.1, h3⟩]
  · rintro ⟨h1, h2⟩
    unfold exprOK at h1
    push_neg at h1
    unfold updateColors
    rw [if_neg (by tauto), if_neg (by tauto), if_pos ⟨h1.2, h1.1, h2⟩]
  · rintro ⟨h1, h2, h3⟩
    unfold exprOK at h1
    push_neg at h1
    unfold updateColors
    rw [if_neg (by tauto), if_neg (by tauto), if_neg (by tauto),
      if_pos ⟨h1.2, h1.1, h3⟩]
  · rintro ⟨h1, h2⟩
    unfold exprOK at h1 h2
    push_neg at h1 h2
    unfold updateColors
    rw [if_neg (by tauto), if_neg (by tauto), if_neg (by tauto),
      if_neg (by tauto), if_pos ⟨h1.2, h1.1, h2.2, h2.1⟩]

/-- After `updateColors`, both pixels are expressible with the new active
colors. -/
theorem updateColors_expressible (f b p1 p2 : Color) :
    exprOK p1 (updateColors f b p1 p2).1 (updateColors f b p1 p2).2.1 ∧
      exprOK p2 (updateColors f b p1 p2).1 (updateColors f b p1 p2).2.1 := by
  unfold updateColors exprOK
  split_ifs <;> simp_all <;> tauto

/-- The glyph chain matches whenever both pixels are expressible. -/
theorem glyphFor_isSome (f b p1 p2 : Color) (h1 : exprOK p1 f b)
    (h2 : exprOK p2 f b) : (glyphFor f b p1 p2).isSome = true := by
  unfold glyphFor
  unfold exprOK at h1 h2
  split_ifs <;> simp_all <;> tauto

/-- Formalization of claim C1 exactly as stated, for a result `r` of the
color-resolution step: reuse both active colors if both pixels already
match; otherwise reassign exactly one active color — preferring to keep the
background and reassign the foreground, then the symmetric case — whenever
that single reassignment makes both pixels expressible; otherwise reassign
both, foreground = top pixel, background = bottom pixel, foreground escape
before background escape. -/
def C1ClaimSpec (f b p1 p2 : Color) (r : Color × Color × List Tok) : Prop :=
  (exprOK p1 f b ∧ exprOK p2 f b → r = (f, b, [])) ∧
  (¬ (exprOK p1 f b ∧ exprOK p2 f b) ∧
      (∃ f2, exprOK p1 f2 b ∧ exprOK p2 f2 b) →
    r.2.1 = b ∧ exprOK p1 r.1 r.2.1 ∧ exprOK p2 r.1 r.2.1 ∧
      ∃ c, r.2.2 = [Tok.fg c]) ∧
  (¬ (exprOK p1 f b ∧ exprOK p2 f b) ∧
      ¬ (∃ f2, exprOK p1 f2 b ∧ exprOK p2 f2 b) ∧
      (∃ b2, exprOK p1 f b2 ∧ exprOK p2 f b2) →
    r.1 = f ∧ exprOK p1 r.1 r.2.1 ∧ exprOK p2 r.1 r.2.1 ∧
      ∃ c, r.2.2 = [Tok.bg c]) ∧
  (¬ (∃ f2, exprOK p1 f2 b ∧ exprOK p2 f2 b) ∧
      ¬ (∃ b2, exprOK p1 f b2 ∧ exprOK p2 f b2) →
    r = (p1, p2, [Tok.fg p1, Tok.bg p2]))

/-- Counterexample to claim C1: with both active colors black and both cell
pixels equal to the same new color red, reassigning only the foreground
(keeping the background) would make both pixels expressible, so the claim
demands a single foreground reassignment; the code instead takes its final
branch and reassigns both active colors, emitting two escapes. -/
theorem claim_C1_counterexample :
    ¬ C1ClaimSpec Color.BLACK Color.BLACK Color.RED Color.RED
      (updateColors Color.BLACK Color.BLACK Color.RED Color.RED) := by
  intro h
  have h2 := h.2.1 ⟨by decide, ⟨Color.RED, Or.inl rfl, Or.inl rfl⟩⟩
  exact absurd h2.1 (by decide)

/-- Claim C1, amended: the single-reassignment branches fire only when the
other pixel already equals a retained active color — foreground is
reassigned to an inexpressible pixel when the opposite pixel equals the
background (preferring the top pixel), the background is reassigned when the
opposite pixel equals the foreground (and not the background); when both
pixels differ from both active colors the code always reassigns both
(foreground = top, background = bottom, foreground escape first), even when
a single reassignment would have sufficed (e.g. both pixels equal). -/
theorem claim_C1_amended (f b p1 p2 : Color) :
    (exprOK p1 f b ∧ exprOK p2 f b →
      updateColors f b p1 p2 = (f, b, [])) ∧
    (¬ exprOK p1 f b ∧ p2 = b →
      updateColors f b p1 p2 = (p1, b, [Tok.fg p1])) ∧
    (¬ exprOK p1 f b ∧ p2 ≠ b ∧ p2 = f →
      updateColors f b p1 p2 = (f, p1, [Tok.bg p1])) ∧
    (¬ exprOK p2 f b ∧ p1 = b →
      updateColors f b p1 p2 = (p2, b, [Tok.fg p2])) ∧
    (¬ exprOK p2 f b ∧ p1 ≠ b ∧ p1 = f →
      updateColors f b p1 p2 = (f, p2, [Tok.bg p2])) ∧
    (¬ exprOK p1 f b ∧ ¬ exprOK p2 f b →
      updateColors f b p1 p2 = (p1, p2, [Tok.fg p1, Tok.bg p2])) :=
  updateColors_cases f b p1 p2

/-- Witness for the amended C1: a cell whose top pixel is a new color and
whose bottom pixel equals the background triggers exactly the
keep-background, reassign-foreground branch with one foreground escape. -/
theorem claim_C1_amended_witness :
    updateColors Color.BLACK Color.BLACK Color.RED Color.BLACK =
      (Color.RED, Color.BLACK, [Tok.fg Color.RED]) :=
  (claim_C1_amended Color.BLACK Color.BLACK Color.RED Color.BLACK).2.1
    ⟨by decide, rfl⟩

/-- Claim C8: after the color-reassignment step, both the top and bottom
pixel colors are expressible by the new active foreground/background, so
the glyph-selection conditional chain is exhaustive — it always prints
exactly one of the four glyphs. -/
theorem claim_C8_glyph_chain_exhaustive (f b p1 p2 : Color) :
    exprOK p1 (updateColors f b p1 p2).1 (updateColors f b p1 p2).2.1 ∧
      exprOK p2 (updateColors f b p1 p2).1 (updateColors f b p1 p2).2.1 ∧
      (glyphFor (updateColors f b p1 p2).1 (updateColors f b p1 p2).2.1
        p1 p2).isSome = true := by
  obtain ⟨h1, h2⟩ := updateColors_expressible f b p1 p2
  exact ⟨h1, h2, glyphFor_isSome _ _ _ _ h1 h2⟩

/-- Per-cell state of the `PushFrame` scan (`src/rds.rs` lines 179-234):
the active terminal colors, the owed-cursor-jump flag `skiped`, and the
output emitted so far. -/
structure EmitState where
  fore : Color
  back : Color
  skiped : Bool
  out : List Tok
deriving DecidableEq, Repr

/-- Model of one iteration of the inner loop of the `PushFrame` handler
(`src/rds.rs` lines 186-230) at column `i` and pixel row `j`: skip the cell
(remembering the owed jump) when the sizes match and both pixels equal the
previous frame; otherwise resolve colors, emit the owed absolute-position
escape `(j/2+1, i+1)` if any, and print the matching glyph. -/
def cellStep (screen prev : Image) (st : EmitState) (i j : Int) : EmitState :=
  if screen.size = prev.size ∧ screen.get ⟨i, j⟩ = prev.get ⟨i, j⟩ ∧
      screen.get ⟨i, j + 1⟩ = prev.get ⟨i, j + 1⟩ then
    { st with skiped := true }
  else
    let uc := updateColors st.fore st.back (screen.get ⟨i, j⟩)
      (screen.get ⟨i, j + 1⟩)
    let jtoks : List Tok :=
      if st.skiped then [Tok.jump (j / 2 + 1) (i + 1)] else []
    let gtoks : List Tok :=
      match glyphFor uc.1 uc.2.1 (screen.get ⟨i, j⟩) (screen.get ⟨i, j + 1⟩) with
      | some g => [Tok.glyph g]
      | none => []
    ⟨uc.1, uc.2.1, false, st.out ++ uc.2.2 ++ jtoks ++ gtoks⟩

/-- The cell coordinates `(i, j)` visited by the two `PushFrame` loops
(`src/rds.rs` lines 185-186): pixel rows `j = 0, 2, 4, ...` below
`screen_size.y`, columns `i = 0 .. screen_size.x`, row-major. -/
def pushCells (size : Vec2) : List (Int × Int) :=
  (List.range ((size.y.toNat + 1) / 2)).flatMap
    (fun r => (List.range size.x.toNat).map (fun i => ((i : Int), (2 * r : Int))))

/-- Model of the full `PushFrame` diff/encode pass (`src/rds.rs` lines
179-234): start with the cursor-home escape and no owed jump, then fold the
per-cell step over all cells. -/
def pushFrame (size : Vec2) (screen prev : Image) (f b : Color) : EmitState :=
  (pushCells size).foldl (fun st c => cellStep screen prev st c.1 c.2)
    ⟨f, b, false, [Tok.home]⟩

/-- Glyph and color escapes (the tokens claim C6 counts). -/
def isGC : Tok → Bool
  | Tok.fg _ => true
  | Tok.bg _ => true
  | Tok.glyph _ => true
  | _ => false

/-- Number of glyph and color escapes in an output stream. -/
def countGC (l : List Tok) : Nat := (l.filter isGC).length

/-- A cell diffed against an identical previous frame is always skipped. -/
theorem cellStep_self (screen : Image) (st : EmitState) (i j : Int) :
    cellStep screen screen st i j = { st with skiped := true } := by
  unfold cellStep
  rw [if_pos ⟨rfl, rfl, rfl⟩]

/-- Folding the per-cell step of a push whose previous frame equals the
current frame emits nothing. -/
theorem foldl_cellStep_self_out (screen : Image) (cells : List (Int × Int))
    (st : EmitState) :
    (cells.foldl (fun st c => cellStep screen screen st c.1 c.2) st).out =
      st.out := by
  induction cells generalizing st with
  | nil => rfl
  | cons c rest ih =>
    rw [List.foldl_cons, cellStep_self]
    exact ih _

/-- Claim C5: a cell whose two pixels both equal the corresponding pixels of
the (same-sized) previous frame emits nothing — only the owed-jump flag is
raised — and when a cell is emitted with a jump owed, the emitted tokens
for that cell are its color escapes followed by the absolute
cursor-position escape `(row = j/2 + 1, col = i + 1)` immediately before
its glyph. -/
theorem claim_C5_skip_and_owed_jump (screen prev : Image) (st : EmitState)
    (i j : Int) :
    (screen.size = prev.size → screen.get ⟨i, j⟩ = prev.get ⟨i, j⟩ →
      screen.get ⟨i, j + 1⟩ = prev.get ⟨i, j + 1⟩ →
      cellStep screen prev st i j = { st with skiped := true }) ∧
    (st.skiped = true →
      ¬ (screen.size = prev.size ∧ screen.get ⟨i, j⟩ = prev.get ⟨i, j⟩ ∧
          screen.get ⟨i, j + 1⟩ = prev.get ⟨i, j + 1⟩) →
      ∃ g : Glyph,
        cellStep screen prev st i j =
          ⟨(updateColors st.fore st.back (screen.get ⟨i, j⟩)
              (screen.get ⟨i, j + 1⟩)).1,
           (updateColors st.fore st.back (screen.get ⟨i, j⟩)
              (screen.get ⟨i, j + 1⟩)).2.1,
           false,
           st.out ++ (updateColors st.fore st.back (screen.get ⟨i, j⟩)
              (screen.get ⟨i, j + 1⟩)).2.2 ++
             [Tok.jump (j / 2 + 1) (i + 1), Tok.glyph g]⟩) := by
  constructor
  · intro hsz h1 h2
    unfold cellStep
    rw [if_pos ⟨hsz, h1, h2⟩]
  · intro hsk hcond
    obtain ⟨h1, h2⟩ := updateColors_expressible st.fore st.back
      (screen.get ⟨i, j⟩) (screen.get ⟨i, j + 1⟩)
    obtain ⟨g, hg⟩ := Option.isSome_iff_exists.mp
      (glyphFor_isSome _ _ _ _ h1 h2)
    refine ⟨g, ?_⟩
    unfold cellStep
    rw [if_neg hcond]
    simp only [hsk, if_true, hg]
    simp [List.append_assoc]

/-- Witness for C5: the skip branch on identical 1×2 frames, and the
emit-after-skip branch on a red frame diffed against a black one (the
emitted cell is preceded by the jump escape to row 1, column 1, placed
right before its glyph). -/
theorem claim_C5_witness :
    (cellStep (Image.new 1 2) (Image.new 1 2)
        ⟨Color.BLACK, Color.BLACK, false, [Tok.home]⟩ 0 0 =
      { fore := Color.BLACK, back := Color.BLACK, skiped := true,
        out := [Tok.home] }) ∧
    (∃ g : Glyph,
      cellStep ⟨[Color.RED, Color.RED], ⟨1, 2⟩⟩ (Image.new 1 2)
          ⟨Color.BLACK, Color.BLACK, true, [Tok.home]⟩ 0 0 =
        ⟨Color.RED, Color.RED, false,
          [Tok.home, Tok.fg Color.RED, Tok.bg Color.RED, Tok.jump 1 1,
            Tok.glyph g]⟩) :=
  ⟨(claim_C5_skip_and_owed_jump (Image.new 1 2) (Image.new 1 2)
      ⟨Color.BLACK, Color.BLACK, false, [Tok.home]⟩ 0 0).1 rfl rfl rfl,
   (claim_C5_skip_and_owed_jump ⟨[Color.RED, Color.RED], ⟨1, 2⟩⟩
      (Image.new 1 2) ⟨Color.BLACK, Color.BLACK, true, [Tok.home]⟩ 0 0).2
      rfl (by decide)⟩

/-- Counterexample to claim C6: when the first of the two identical pushes
already matches the previous frame (all-black 1×2 screen), both pushes emit
zero glyph/color escapes, so the second is not strictly fewer. -/
theorem claim_C6_counterexample :
    ¬ (countGC (pushFrame ⟨1, 2⟩ (Image.new 1 2) (Image.new 1 2)
          (pushFrame ⟨1, 2⟩ (Image.new 1 2) (Image.new 1 2)
            Color.BLACK Color.BLACK).fore
          (pushFrame ⟨1, 2⟩ (Image.new 1 2) (Image.new 1 2)
            Color.BLACK Color.BLACK).back).out <
        countGC (pushFrame ⟨1, 2⟩ (Image.new 1 2) (Image.new 1 2)
          Color.BLACK Color.BLACK).out) := by
  decide

/-- Claim C6, amended: pushing the same frame again emits zero glyph/color
escapes (every cell is skipped), so the second of two identical consecutive
pushes emits strictly fewer such escapes than the first exactly when the
first emitted at least one — which can fail only in the degenerate case
where the first frame was itself identical to the frame before it. -/
theorem claim_C6_amended (size : Vec2) (screen prev : Image) (f b : Color) :
    countGC (pushFrame size screen screen
        (pushFrame size screen prev f b).fore
        (pushFrame size screen prev f b).back).out = 0 ∧
      (0 < countGC (pushFrame size screen prev f b).out →
        countGC (pushFrame size screen screen
            (pushFrame size screen prev f b).fore
            (pushFrame size screen prev f b).back).out <
          countGC (pushFrame size screen prev f b).out) := by
  have hz : ∀ f2 b2 : Color,
      countGC (pushFrame size screen screen f2 b2).out = 0 := by
    intro f2 b2
    unfold pushFrame
    rw [foldl_cellStep_self_out]
    rfl
  refine ⟨hz _ _, fun h => ?_⟩
  rw [hz]
  exact h

/-- Witness for the amended C6: a red 1×2 frame pushed over a black
previous frame emits three glyph/color escapes; pushing it again emits
none, strictly fewer. -/
theorem claim_C6_amended_witness :
    countGC (pushFrame ⟨1, 2⟩ ⟨[Color.RED, Color.RED], ⟨1, 2⟩⟩
        ⟨[Color.RED, Color.RED], ⟨1, 2⟩⟩
        (pushFrame ⟨1, 2⟩ ⟨[Color.RED, Color.RED], ⟨1, 2⟩⟩ (Image.new 1 2)
          Color.BLACK Color.BLACK).fore
        (pushFrame ⟨1, 2⟩ ⟨[Color.RED, Color.RED], ⟨1, 2⟩⟩ (Image.new 1 2)
          Color.BLACK Color.BLACK).back).out <
      countGC (pushFrame ⟨1, 2⟩ ⟨[Color.RED, Color.RED], ⟨1, 2⟩⟩
        (Image.new 1 2) Color.BLACK Color.BLACK).out :=
  (claim_C6_amended ⟨1, 2⟩ ⟨[Color.RED, Color.RED], ⟨1, 2⟩⟩ (Image.new 1 2)
    Color.BLACK Color.BLACK).2 (by decide)

/-- The drawing/control messages sent to the rendering server
(`src/rds.rs` lines 56-72), restricted to the payload the protocol claims
need. -/
inductive Directive where
  | drawLine : Vec2 → Vec2 → Color → Directive
  | drawRect : Vec2 → Vec2 → Color → Directive
  | drawPoint : Vec2 → Color → Directive
  | clearScreen : Color → Directive
  | updateScreenSize : Vec2 → Directive
  | beginFrame : Directive
  | pushFrame : Directive
deriving DecidableEq, Repr

/-- The caller-side state of the `Renderer` facade (`src/rds.rs` lines
98-110) relevant to the begin/end-frame protocol: the frame-open flag, the
last known screen size, and the directives sent so far. A panic is
modelled as `none`. -/
structure RendererState where
  building_frame : Bool
  prev_screen_size : Vec2
  sent : List Directive
deriving DecidableEq, Repr

/-- Model of `Renderer::can_draw` (`src/rds.rs` lines 294-296): panics
(`none`) when no frame is being built. -/
def can_draw (st : RendererState) : Option Unit :=
  if st.building_frame then some () else none

/-- Model of `Renderer::begin_draw` (`src/rds.rs` lines 302-315): panics if
a frame is already open; otherwise raises the flag, sends a resize
directive when the terminal size changed, and sends `BeginFrame`. The
current terminal size is passed as `new_size`. -/
def begin_draw (st : RendererState) (new_size : Vec2) :
    Option RendererState :=
  if st.building_frame then none
  else some
    { building_frame := true
      prev_screen_size := new_size
      sent := st.sent ++
        (if st.prev_screen_size ≠ new_size
          then [Directive.updateScreenSize new_size] else []) ++
        [Directive.beginFrame] }

/-- Model of `Renderer::end_draw` (`src/rds.rs` lines 319-325): panics if
no frame is open; otherwise lowers the flag and sends `PushFrame`. -/
def end_draw (st : RendererState) : Option RendererState :=
  if !st.building_frame then none
  else some { st with
    building_frame := false
    sent := st.sent ++ [Directive.pushFrame] }

/-- Model of `Renderer::draw_point` (`src/rds.rs` lines 378-383): a drawing
primitive guarded by `can_draw`. -/
def draw_point (st : RendererState) (p : Vec2) (c : Color) :
    Option RendererState :=
  match can_draw st with
  | none => none
  | some _ => some { st with sent := st.sent ++ [Directive.drawPoint p c] }

/-- Model of `Renderer::draw_line` (`src/rds.rs` lines 336-342). -/
def draw_line (st : RendererState) (p1 p2 : Vec2) (c : Color) :
    Option RendererState :=
  match can_draw st with
  | none => none
  | some _ => some { st with sent := st.sent ++ [Directive.drawLine p1 p2 c] }

/-- Model of `Renderer::draw_rect` (`src/rds.rs` lines 347-353). -/
def draw_rect (st : RendererState) (p s : Vec2) (c : Color) :
    Option RendererState :=
  match can_draw st with
  | none => none
  | some _ => some { st with sent := st.sent ++ [Directive.drawRect p s c] }

/-- Model of `Renderer::clear_screen` (`src/rds.rs` lines 329-332). -/
def clear_screen (st : RendererState) (c : Color) : Option RendererState :=
  match can_draw st with
  | none => none
  | some _ => some { st with sent := st.sent ++ [Directive.clearScreen c] }

/-- Claim C10: calling `begin_draw` twice without an intervening `end_draw`
panics; calling `end_draw` with no open frame panics; and every drawing
primitive called with no open frame panics — modelled as `none`, never a
silently recovering `some`. -/
theorem claim_C10_protocol_misuse_aborts (st st2 : RendererState)
    (ns : Vec2) :
    (begin_draw st ns = some st2 → ∀ ns2 : Vec2, begin_draw st2 ns2 = none) ∧
    (st.building_frame = false →
      end_draw st = none ∧
      (∀ p c, draw_point st p c = none) ∧
      (∀ p1 p2 c, draw_line st p1 p2 c = none) ∧
      (∀ p s c, draw_rect st p s c = none) ∧
      (∀ c, clear_screen st c = none)) := by
  constructor
  · intro h ns2
    unfold begin_draw at h ⊢
    by_cases hb : st.building_frame
    · rw [if_pos hb] at h
      exact absurd h (by simp)
    · rw [if_neg hb] at h
      have : st2.building_frame = true := by
        cases Option.some.injEq .. ▸ h.symm
        rfl
      rw [if_pos this]
  · intro hb
    have hcd : can_draw st = none := by
      unfold can_draw
      rw [hb]
      rfl
    refine ⟨?_, ?_, ?_, ?_, ?_⟩
    · unfold end_draw
      rw [hb]
      rfl
    · intro p c; unfold draw_point; rw [hcd]
    · intro p1 p2 c; unfold draw_line; rw [hcd]
    · intro p s c; unfold draw_rect; rw [hcd]
    · intro c; unfold clear_screen; rw [hcd]

/-- Witness for C10 at a freshly initialized facade state: the first
`begin_draw` succeeds and a second one panics, and with no open frame
`end_draw` and `draw_point` panic. -/
theorem claim_C10_witness :
    (begin_draw
        { building_frame := true
          prev_screen_size := ⟨3, 4⟩
          sent := [Directive.updateScreenSize ⟨3, 4⟩, Directive.beginFrame] }
        ⟨3, 4⟩ = none) ∧
      end_draw ⟨false, ⟨0, 0⟩, []⟩ = none ∧
      draw_point ⟨false, ⟨0, 0⟩, []⟩ ⟨1, 1⟩ Color.RED = none := by
  refine ⟨?_, ?_, ?_⟩
  · exact (claim_C10_protocol_misuse_aborts ⟨false, ⟨0, 0⟩, []⟩
      ⟨true, ⟨3, 4⟩,
        [Directive.updateScreenSize ⟨3, 4⟩, Directive.beginFrame]⟩
      ⟨3, 4⟩).1 (by decide) ⟨3, 4⟩
  · exact ((claim_C10_protocol_misuse_aborts ⟨false, ⟨0, 0⟩, []⟩
      ⟨false, ⟨0, 0⟩, []⟩ ⟨0, 0⟩).2 rfl).1
  · exact ((claim_C10_protocol_misuse_aborts ⟨false, ⟨0, 0⟩, []⟩
      ⟨false, ⟨0, 0⟩, []⟩ ⟨0, 0⟩).2 rfl).2.1 ⟨1, 1⟩ Color.RED

/-- Loop state of `Image::line` (`src/img.rs` lines 352-383): the buffer,
the moving point `p1`, and the Bresenham error term. -/
structure LineState where
  img : Image
  p : Vec2
  err : Int

/-- The `while` guard of `Image::line` (`src/img.rs` lines 367-369): the
point has not reached `p2`, and stepping in each fixed direction can still
be (or re-enter) in bounds. -/
def lineGuard (p2 : Vec2) (sx sy : Int) (st : LineState) : Prop :=
  (st.p.x ≠ p2.x ∨ st.p.y ≠ p2.y) ∧
    ((st.p.x < st.img.size.x ∧ 0 < sx) ∨ (0 ≤ st.p.x ∧ sx < 0)) ∧
    ((st.p.y < st.img.size.y ∧ 0 < sy) ∨ (0 ≤ st.p.y ∧ sy < 0))

instance (p2 : Vec2) (sx sy : Int) (st : LineState) :
    Decidable (lineGuard p2 sx sy st) := by
  unfold lineGuard; infer_instance

/-- One iteration of the `Image::line` loop body (`src/img.rs` lines
371-381): advance `x` when `e2 >= dy`, advance `y` when `e2 <= dx`, then
write the pixel via the bounds-safe indexed write. -/
def lineStep (dx dy sx sy : Int) (c : Color) (st : LineState) : LineState :=
  let e2 := 2 * st.err
  let err1 := if dy ≤ e2 then st.err + dy else st.err
  let px := if dy ≤ e2 then st.p.x + sx else st.p.x
  let err2 := if e2 ≤ dx then err1 + dx else err1
  let py := if e2 ≤ dx then st.p.y + sy else st.p.y
  ⟨st.img.set ⟨px, py⟩ c, ⟨px, py⟩, err2⟩

/-- The `while` loop of `Image::line` with an explicit fuel bound;
`none` means the fuel ran out before the guard failed. -/
def lineLoop (p2 : Vec2) (dx dy sx sy : Int) (c : Color) :
    Nat → LineState → Option LineState
  | 0, st => if lineGuard p2 sx sy st then none else some st
  | n + 1, st =>
    if lineGuard p2 sx sy st then
      lineLoop p2 dx dy sx sy c n (lineStep dx dy sx sy c st)
    else some st

/-- Fuel bound for the line loop: how far each coordinate can still travel
before its exit condition must trigger. -/
def lineFuel (sz : Vec2) (p : Vec2) (sx sy : Int) : Nat :=
  (if 0 < sx then (sz.x - p.x).toNat else (p.x + 1).toNat) +
    (if 0 < sy then (sz.y - p.y).toNat else (p.y + 1).toNat)

/-- Model of `Image::line` (`src/img.rs` lines 352-383): set up the
Bresenham increments, write the first pixel, then run the loop (the fuel
always suffices, see the C9 theorem). -/
def Image.line (img : Image) (p1 p2 : Vec2) (c : Color) : Image :=
  let dx := |p2.x - p1.x|
  let sx : Int := if p1.x < p2.x then 1 else -1
  let dy := -|p2.y - p1.y|
  let sy : Int := if p1.y < p2.y then 1 else -1
  let st0 : LineState := ⟨img.set p1 c, p1, dx + dy⟩
  match lineLoop p2 dx dy sx sy c (lineFuel (img.set p1 c).size p1 sx sy) st0 with
  | some st => st.img
  | none => st0.img

theorem lineStep_size (dx dy sx sy : Int) (c : Color) (st : LineState) :
    (lineStep dx dy sx sy c st).img.size = st.img.size := by
  unfold lineStep
  simp [Image.set_size]

/-- A live guard forces a positive fuel measure. -/
theorem lineGuard_fuel_pos (p2 : Vec2) (sx sy : Int) (st : LineState)
    (hsx : sx = 1 ∨ sx = -1) (hsy : sy = 1 ∨ sy = -1)
    (hg : lineGuard p2 sx sy st) :
    0 < lineFuel st.img.size st.p sx sy := by
  obtain ⟨-, hx, hy⟩ := hg
  rcases hsx with rfl | rfl <;> rcases hsy with rfl | rfl <;>
    simp only [lineFuel] <;> split_ifs <;> omega

/-- Each loop iteration strictly decreases the fuel measure. -/
theorem lineStep_measure (p2 : Vec2) (dx dy sx sy : Int) (c : Color)
    (st : LineState) (hsx : sx = 1 ∨ sx = -1) (hsy : sy = 1 ∨ sy = -1)
    (hdx : 0 ≤ dx) (hdy : dy ≤ 0) (hg : lineGuard p2 sx sy st) :
    lineFuel (lineStep dx dy sx sy c st).img.size
        (lineStep dx dy sx sy c st).p sx sy <
      lineFuel st.img.size st.p sx sy := by
  obtain ⟨-, hx, hy⟩ := hg
  rcases hsx with rfl | rfl <;> rcases hsy with rfl | rfl <;>
    simp only [lineFuel, lineStep, Image.set_size] <;> split_ifs <;> omega

theorem lineStep_img (dx dy sx sy : Int) (c : Color) (st : LineState) :
    (lineStep dx dy sx sy c st).img =
      st.img.set (lineStep dx dy sx sy c st).p c := rfl

/-- With fuel at least the measure, the line loop reaches a state failing
the guard, preserving the size and changing only in-range pixels, which it
sets to `c`. -/
theorem lineLoop_total (p2 : Vec2) (dx dy sx sy : Int) (c : Color)
    (hsx : sx = 1 ∨ sx = -1) (hsy : sy = 1 ∨ sy = -1)
    (hdx : 0 ≤ dx) (hdy : dy ≤ 0) :
    ∀ (fuel : Nat) (st : LineState),
      lineFuel st.img.size st.p sx sy ≤ fuel →
      ∃ st2, lineLoop p2 dx dy sx sy c fuel st = some st2 ∧
        ¬ lineGuard p2 sx sy st2 ∧
        st2.img.size = st.img.size ∧
        (∀ q : Vec2, st2.img.get q ≠ st.img.get q →
          ¬ st2.img.is_out_of_range q ∧ st2.img.get q = c) := by
  intro fuel
  induction fuel with
  | zero =>
    intro st hm
    by_cases hg : lineGuard p2 sx sy st
    · exact absurd (lineGuard_fuel_pos p2 sx sy st hsx hsy hg) (by omega)
    · refine ⟨st, ?_, hg, rfl, ?_⟩
      · unfold lineLoop
        rw [if_neg hg]
      · intro q hq
        exact absurd rfl hq
  | succ n ih =>
    intro st hm
    by_cases hg : lineGuard p2 sx sy st
    · have hlt := lineStep_measure p2 dx dy sx sy c st hsx hsy hdx hdy hg
      obtain ⟨st2, hloop, hg2, hsz, hch⟩ :=
        ih (lineStep dx dy sx sy c st) (by omega)
      refine ⟨st2, ?_, hg2, by rw [hsz, lineStep_size], ?_⟩
      · unfold lineLoop
        rw [if_pos hg]
        exact hloop
      · intro q hq
        by_cases he : st2.img.get q = (lineStep dx dy sx sy c st).img.get q
        · rw [he] at hq ⊢
          rw [lineStep_img] at hq ⊢
          obtain ⟨hin, hval⟩ := Image.get_set_changed st.img _ q c hq
          refine ⟨?_, hval⟩
          intro hob
          apply hin
          unfold Image.is_out_of_range at hob ⊢
          rw [hsz, lineStep_size] at hob
          exact hob
        · exact hch q he
    · refine ⟨st, ?_, hg, rfl, ?_⟩
      · unfold lineLoop
        rw [if_neg hg]
      · intro q hq
        exact absurd rfl hq

/-- Claim C9: for every buffer, endpoints and color, the integer Bresenham
loop of `line(p1,p2,c)` terminates within an explicit fuel bound; at exit
the loop guard has failed (the point reached `p2`, or stepping in the fixed
directions can no longer be in bounds), the buffer keeps its size, and
every pixel the call changed is in range and was written with `c` through
the bounds-safe setter. -/
theorem claim_C9_line_terminates (img : Image) (p1 p2 : Vec2) (c : Color) :
    ∃ st2 : LineState,
      lineLoop p2 (|p2.x - p1.x|) (-|p2.y - p1.y|)
          (if p1.x < p2.x then 1 else -1) (if p1.y < p2.y then 1 else -1) c
          (lineFuel (img.set p1 c).size p1
            (if p1.x < p2.x then 1 else -1)
            (if p1.y < p2.y then 1 else -1))
          ⟨img.set p1 c, p1, |p2.x - p1.x| + -|p2.y - p1.y|⟩ = some st2 ∧
        Image.line img p1 p2 c = st2.img ∧
        ¬ lineGuard p2 (if p1.x < p2.x then 1 else -1)
            (if p1.y < p2.y then 1 else -1) st2 ∧
        st2.img.size = img.size ∧
        (∀ q : Vec2, st2.img.get q ≠ img.get q →
          ¬ img.is_out_of_range q ∧ st2.img.get q = c) := by
  have hsx : (if p1.x < p2.x then (1 : Int) else -1) = 1 ∨
      (if p1.x < p2.x then (1 : Int) else -1) = -1 := by
    split_ifs
    · exact Or.inl rfl
    · exact Or.inr rfl
  have hsy : (if p1.y < p2.y then (1 : Int) else -1) = 1 ∨
      (if p1.y < p2.y then (1 : Int) else -1) = -1 := by
    split_ifs
    · exact Or.inl rfl
    · exact Or.inr rfl
  obtain ⟨st2, hloop, hg2, hsz, hch⟩ :=
    lineLoop_total p2 (|p2.x - p1.x|) (-|p2.y - p1.y|)
      (if p1.x < p2.x then 1 else -1) (if p1.y < p2.y then 1 else -1) c
      hsx hsy (abs_nonneg _) (neg_nonpos_of_nonneg (abs_nonneg _))
      (lineFuel (img.set p1 c).size p1
        (if p1.x < p2.x then 1 else -1) (if p1.y < p2.y then 1 else -1))
      ⟨img.set p1 c, p1, |p2.x - p1.x| + -|p2.y - p1.y|⟩ (le_refl _)
  refine ⟨st2, hloop, ?_, hg2, ?_, ?_⟩
  · show (match lineLoop p2 (|p2.x - p1.x|) (-|p2.y - p1.y|)
        (if p1.x < p2.x then (1 : Int) else -1)
        (if p1.y < p2.y then (1 : Int) else -1) c
        (lineFuel (img.set p1 c).size p1
          (if p1.x < p2.x then 1 else -1) (if p1.y < p2.y then 1 else -1))
        (⟨img.set p1 c, p1, |p2.x - p1.x| + -|p2.y - p1.y|⟩ : LineState) with
      | some st => st.img
      | none =>
        (⟨img.set p1 c, p1,
          |p2.x - p1.x| + -|p2.y - p1.y|⟩ : LineState).img) = st2.img
    rw [hloop]
  · rw [hsz]
    exact Image.set_size img p1 c
  · intro q hq
    by_cases he : st2.img.get q = (img.set p1 c).get q
    · rw [he] at hq ⊢
      exact Image.get_set_changed img p1 q c hq
    · obtain ⟨hin, hval⟩ := hch q he
      refine ⟨?_, hval⟩
      intro hob
      apply hin
      unfold Image.is_out_of_range at hob ⊢
      rw [hsz, Image.set_size]
      exact hob

/-- Model of `Image::raw_resize` (`src/img.rs` lines 307-313): set the new
size and `Vec::resize` the buffer to `new.x * new.y`, truncating or
padding with black. -/
def Image.rawResize (img : Image) (ns : Vec2) : Image :=
  ⟨img.data.take (ns.x * ns.y).toNat ++
    List.replicate ((ns.x * ns.y).toNat - img.data.length) Color.BLACK, ns⟩

/-- Inner loop of `Image::resize` (`src/img.rs` lines 325-329) over one row
`j`: repeatedly `self.data[cnt] = self[(i, j)]` — a read through the
bounds-safe `Index` on the current buffer with the old size, then a direct
vector write at `cnt`, which panics (`none`) when `cnt` is out of the
buffer. -/
def copyRowLoop (sz : Vec2) (j : Int) :
    Nat → Int → List Color × Nat → Option (List Color × Nat)
  | 0, _, st => some st
  | n + 1, i, (d, cnt) =>
    if cnt < d.length then
      copyRowLoop sz j n (i + 1)
        (d.set cnt (Image.get ⟨d, sz⟩ ⟨i, j⟩), cnt + 1)
    else none

/-- Outer loop of `Image::resize` (`src/img.rs` lines 324-330): rows
`j = 1 .. new.y`. -/
def copyLoop (sz : Vec2) (nsx : Int) :
    Nat → Int → List Color × Nat → Option (List Color × Nat)
  | 0, _, st => some st
  | m + 1, j, st =>
    match copyRowLoop sz j nsx.toNat 0 st with
    | some st2 => copyLoop sz nsx m (j + 1) st2
    | none => none

/-- Model of `Image::resize` (`src/img.rs` lines 317-332): when the width
changes, compact the kept rows in place starting at `cnt = new.x` (row 0
is left where it is), then `raw_resize`; `none` models the marked
`TOFIX: buffer overflow` panic of the in-place write. -/
def Image.resize (img : Image) (ns : Vec2) : Option Image :=
  if ns.x ≠ img.size.x then
    match copyLoop img.size ns.x (ns.y - 1).toNat 1 (img.data, ns.x.toNat) with
    | some (d, _) => some (Image.rawResize ⟨d, img.size⟩ ns)
    | none => none
  else some (img.rawResize ns)

theorem Image.rawResize_size (img : Image) (ns : Vec2) :
    (img.rawResize ns).size = ns := rfl

theorem Image.rawResize_data_length (img : Image) (ns : Vec2) :
    (img.rawResize ns).data.length = (ns.x * ns.y).toNat := by
  unfold Image.rawResize
  simp only [List.length_append, List.length_take, List.length_replicate]
  omega

theorem Image.rawResize_WF (img : Image) (ns : Vec2) (hx : 0 ≤ ns.x)
    (hy : 0 ≤ ns.y) : (img.rawResize ns).WF :=
  ⟨hx, hy, Image.rawResize_data_length img ns⟩

/-- Counterexample to claim C7: resizing a 4×2 buffer to 3×5 — the width
shrinks from 4 to 3 — still overruns the old 8-element allocation (the
copy loop reaches `cnt = 8`), so the absence of out-of-bounds access does
not hold merely because the width does not grow. -/
theorem claim_C7_counterexample :
    (Image.new 4 2).resize ⟨3, 5⟩ = none := by
  decide

/-- Reads with the same size agree whenever the point is out of range or
the underlying buffers agree at the indexed position. -/
theorem get_congr_data (d d0 : List Color) (sz : Vec2) (p : Vec2)
    (h : (Image.mk d sz).is_out_of_range p ∨
      d.getD (p.x + p.y * sz.x).toNat Color.BLACK =
        d0.getD (p.x + p.y * sz.x).toNat Color.BLACK) :
    Image.get ⟨d, sz⟩ p = Image.get ⟨d0, sz⟩ p := by
  by_cases hob : (Image.mk d sz).is_out_of_range p
  · rw [Image.get_oob _ _ hob,
      Image.get_oob _ _ (show (Image.mk d0 sz).is_out_of_range p from hob)]
  · rw [Image.get_in _ _ hob,
      Image.get_in _ _ (show ¬ (Image.mk d0 sz).is_out_of_range p from hob)]
    rcases h with h | h
    · exact absurd h hob
    · exact h

/-- Invariant of one row of the resize copy loop: starting at column `i`
with write cursor `cnt = j*nsxN + i` and a buffer agreeing with the
original from `cnt` on, the remaining `n` writes succeed, positions below
`cnt` and at or beyond `cnt + n` are untouched, and the cells written hold
the original pixels of row `j` (reads stay ahead of the write cursor
because the kept width is strictly below the old width). -/
theorem copyRowLoop_inv (sz : Vec2) (d0 : List Color) (j : Int)
    (nsxN : Nat) (hw : (nsxN : Int) < sz.x) (hj : 1 ≤ j) :
    ∀ (n : Nat) (i : Int) (d : List Color) (cnt : Nat),
      d.length = d0.length →
      (∀ k, cnt ≤ k → d.getD k Color.BLACK = d0.getD k Color.BLACK) →
      0 ≤ i →
      (cnt : Int) = j * (nsxN : Int) + i →
      cnt + n ≤ d0.length →
      ∃ d2, copyRowLoop sz j n i (d, cnt) = some (d2, cnt + n) ∧
        d2.length = d0.length ∧
        (∀ k, cnt + n ≤ k → d2.getD k Color.BLACK = d0.getD k Color.BLACK) ∧
        (∀ k, k < cnt → d2.getD k Color.BLACK = d.getD k Color.BLACK) ∧
        (∀ t : Nat, t < n →
          d2.getD (cnt + t) Color.BLACK = Image.get ⟨d0, sz⟩ ⟨i + t, j⟩) := by
  intro n
  induction n with
  | zero =>
    intro i d cnt hlen hpres hi hcnt hfit
    refine ⟨d, rfl, hlen, ?_, ?_, ?_⟩
    · intro k hk
      exact hpres k (by omega)
    · intro k hk
      rfl
    · intro t ht
      exact absurd ht (by omega)
  | succ n ih =>
    intro i d cnt hlen hpres hi hcnt hfit
    have hcd : cnt < d.length := by omega
    have hread : Image.get ⟨d, sz⟩ ⟨i, j⟩ = Image.get ⟨d0, sz⟩ ⟨i, j⟩ := by
      apply get_congr_data
      by_cases hob : (Image.mk d sz).is_out_of_range ⟨i, j⟩
      · exact Or.inl hob
      · refine Or.inr ?_
        have h3 : 0 ≤ i + j * sz.x :=
          Image.index_nonneg ⟨d0, sz⟩ ⟨i, j⟩
            (show ¬ (Image.mk d0 sz).is_out_of_range ⟨i, j⟩ from hob)
        have h2 : j * (nsxN : Int) ≤ j * sz.x :=
          mul_le_mul_of_nonneg_left hw.le (by omega)
        have h1 : (cnt : Int) ≤ i + j * sz.x := by linarith [hcnt]
        have key : cnt ≤ (i + j * sz.x).toNat := by
          generalize hT : i + j * sz.x = T at h1 h3
          omega
        exact hpres _ key
    have hstep : copyRowLoop sz j (n + 1) i (d, cnt) =
        if cnt < d.length then
          copyRowLoop sz j n (i + 1)
            (d.set cnt (Image.get ⟨d, sz⟩ ⟨i, j⟩), cnt + 1)
        else none := rfl
    obtain ⟨d2, hloop, hlen2, hpres2, hbelow2, hwrit2⟩ :=
      ih (i + 1) (d.set cnt (Image.get ⟨d, sz⟩ ⟨i, j⟩)) (cnt + 1)
        (by rw [List.length_set]; exact hlen)
        (by
          intro k hk
          rw [getD_set_ne d cnt k _ _ (by omega)]
          exact hpres k (by omega))
        (by omega)
        (by push_cast; linarith [hcnt])
        (by omega)
    refine ⟨d2, ?_, hlen2, ?_, ?_, ?_⟩
    · rw [hstep, if_pos hcd, hloop]
      have e : cnt + 1 + n = cnt + (n + 1) := by omega
      rw [e]
    · intro k hk
      exact hpres2 k (by omega)
    · intro k hk
      rw [hbelow2 k (by omega)]
      exact getD_set_ne d cnt k _ _ (by omega)
    · intro t ht
      cases t with
      | zero =>
        have h1 : d2.getD cnt Color.BLACK =
            (d.set cnt (Image.get ⟨d, sz⟩ ⟨i, j⟩)).getD cnt Color.BLACK :=
          hbelow2 cnt (by omega)
        rw [show cnt + 0 = cnt from rfl, h1,
          getD_set_self d cnt _ _ hcd, hread]
        norm_num
      | succ t2 =>
        have h1 := hwrit2 t2 (by omega)
        have e1 : cnt + 1 + t2 = cnt + (t2 + 1) := by omega
        have e2 : i + 1 + (t2 : Int) = i + ((t2 + 1 : Nat) : Int) := by
          push_cast
          ring
        rw [e1, e2] at h1
        exact h1

/-- Invariant of the full resize copy loop: processing rows `j, j+1, ...`
(`m` rows) from write cursor `cnt = j * nsx`, all writes succeed, positions
below `cnt` are untouched, and the written cells hold the original pixels
of rows `j` onward, compacted at the new width. -/
theorem copyLoop_inv (sz : Vec2) (d0 : List Color) (nsx : Int)
    (hnsx : 0 ≤ nsx) (hw : nsx < sz.x) :
    ∀ (m : Nat) (j : Int) (d : List Color) (cnt : Nat),
      1 ≤ j →
      d.length = d0.length →
      (∀ k, cnt ≤ k → d.getD k Color.BLACK = d0.getD k Color.BLACK) →
      (cnt : Int) = j * (nsx.toNat : Int) →
      (m = 0 ∨ cnt + m * nsx.toNat ≤ d0.length) →
      ∃ d2, copyLoop sz nsx m j (d, cnt) = some (d2, cnt + m * nsx.toNat) ∧
        d2.length = d0.length ∧
        (∀ k, k < cnt → d2.getD k Color.BLACK = d.getD k Color.BLACK) ∧
        (∀ (r t : Nat), r < m → t < nsx.toNat →
          d2.getD (cnt + r * nsx.toNat + t) Color.BLACK =
            Image.get ⟨d0, sz⟩ ⟨(t : Int), j + (r : Int)⟩) := by
  intro m
  induction m with
  | zero =>
    intro j d cnt hj hlen hpres hcnt hfit
    refine ⟨d, by simp [copyLoop], hlen, fun k hk => rfl, ?_⟩
    intro r t hr ht
    exact absurd hr (by omega)
  | succ m ih =>
    intro j d cnt hj hlen hpres hcnt hfit
    have hwN : (nsx.toNat : Int) < sz.x := by
      rwa [Int.toNat_of_nonneg hnsx]
    have hfit2 : cnt + (m + 1) * nsx.toNat ≤ d0.length := by
      rcases hfit with h | h
      · exact absurd h (by omega)
      · exact h
    have hdistrib : (m + 1) * nsx.toNat = m * nsx.toNat + nsx.toNat := by
      ring
    have hrowfit : cnt + nsx.toNat ≤ d0.length := by omega
    obtain ⟨d1, hrow, hlen1, hpres1, hbelow1, hwrit1⟩ :=
      copyRowLoop_inv sz d0 j nsx.toNat hwN hj nsx.toNat 0 d cnt hlen hpres
        (le_refl 0) (by rw [hcnt]; ring) hrowfit
    obtain ⟨d2, hloop, hlen2, hbelow2, hwrit2⟩ :=
      ih (j + 1) d1 (cnt + nsx.toNat) (by omega) hlen1
        (by
          intro k hk
          exact hpres1 k hk)
        (by
          push_cast
          have e : (j + 1) * ((nsx.toNat : Nat) : Int) =
              j * (nsx.toNat : Int) + (nsx.toNat : Int) := by ring
          rw [e]
          linarith [hcnt])
        (by
          rcases Nat.eq_zero_or_pos m with h | h
          · exact Or.inl h
          · right
            omega)
    refine ⟨d2, ?_, hlen2, ?_, ?_⟩
    · have hstep : copyLoop sz nsx (m + 1) j (d, cnt) =
          match copyRowLoop sz j nsx.toNat 0 (d, cnt) with
          | some st2 => copyLoop sz nsx m (j + 1) st2
          | none => none := rfl
      rw [hstep, hrow]
      show copyLoop sz nsx m (j + 1) (d1, cnt + nsx.toNat) =
        some (d2, cnt + (m + 1) * nsx.toNat)
      rw [hloop]
      have e : cnt + nsx.toNat + m * nsx.toNat = cnt + (m + 1) * nsx.toNat := by
        omega
      rw [e]
    · intro k hk
      rw [hbelow2 k (by omega), hbelow1 k hk]
    · intro r t hr ht
      cases r with
      | zero =>
        have h1 : d2.getD (cnt + t) Color.BLACK =
            d1.getD (cnt + t) Color.BLACK :=
          hbelow2 (cnt + t) (by omega)
        have h2 := hwrit1 t ht
        have e1 : cnt + 0 * nsx.toNat + t = cnt + t := by omega
        rw [e1, h1, h2]
        have e2 : (0 : Int) + (t : Int) = (t : Int) := by ring
        have e3 : j + ((0 : Nat) : Int) = j := by push_cast; ring
        rw [e2, e3]
      | succ r2 =>
        have h1 := hwrit2 r2 t (by omega) ht
        have e1 : cnt + nsx.toNat + r2 * nsx.toNat + t =
            cnt + (r2 + 1) * nsx.toNat + t := by ring
        have e2 : j + 1 + (r2 : Int) = j + ((r2 + 1 : Nat) : Int) := by
          push_cast
          ring
        rw [e1, e2] at h1
        exact h1

theorem Image.rawResize_data (img : Image) (ns : Vec2) :
    (img.rawResize ns).data =
      img.data.take (ns.x * ns.y).toNat ++
        List.replicate ((ns.x * ns.y).toNat - img.data.length)
          Color.BLACK := rfl

/-- Reading `rawResize` at a point that is in the new extent and whose new
row-major index is inside the old allocation returns the underlying datum
unchanged. -/
theorem Image.rawResize_get (b : Image) (ns : Vec2) (p : Vec2)
    (hx : 0 ≤ ns.x) (hy : 0 ≤ ns.y) (hp : 0 ≤ p.x) (hpx : p.x < ns.x)
    (hq : 0 ≤ p.y) (hpy : p.y < ns.y)
    (hidxlen : (p.x + p.y * ns.x).toNat < b.data.length) :
    (b.rawResize ns).get p =
      b.data.getD (p.x + p.y * ns.x).toNat Color.BLACK := by
  have hwf2 : (b.rawResize ns).WF := Image.rawResize_WF b ns hx hy
  have hin : ¬ (b.rawResize ns).is_out_of_range p := by
    unfold Image.is_out_of_range
    rw [Image.rawResize_size]
    push_neg
    exact ⟨hp, hq, hpx, hpy⟩
  have hidxN := Image.index_lt (b.rawResize ns) p hin hwf2
  rw [Image.rawResize_size, Image.rawResize_data_length] at hidxN
  rw [Image.get_in _ _ hin, Image.rawResize_size, Image.rawResize_data]
  rw [List.getD_eq_getElem?_getD, List.getD_eq_getElem?_getD]
  rw [List.getElem?_append_left (by
    rw [List.length_take]
    omega)]
  rw [List.getElem?_take_of_lt hidxN]

/-- Claim C7, amended: `resize(size)` is a position-preserving resize
keeping the top-left submatrix — every pixel within both the old and the
new extents keeps its color — and it performs no out-of-bounds array
access, at least whenever the width does not grow AND the in-place copy
stays inside the old allocation: either the width is unchanged (no copy
occurs at all), or the new total size `w'*h'` does not exceed the old
`w*h`. (Merely requiring the width not to grow is not enough: height
growth can still overrun, see the counterexample.) -/
theorem claim_C7_amended (img : Image) (ns : Vec2) (hwf : img.WF)
    (hx : 0 ≤ ns.x) (hy : 0 ≤ ns.y) (hle : ns.x ≤ img.size.x)
    (harea : ns.x = img.size.x ∨ ns.x * ns.y ≤ img.size.x * img.size.y) :
    ∃ img2, img.resize ns = some img2 ∧ img2.size = ns ∧
      ∀ p : Vec2, 0 ≤ p.x → p.x < min ns.x img.size.x →
        0 ≤ p.y → p.y < min ns.y img.size.y →
        img2.get p = img.get p := by
  obtain ⟨hszx, hszy, hlen⟩ := hwf
  by_cases heq : ns.x = img.size.x
  · have hres : img.resize ns = some (img.rawResize ns) := by
      unfold Image.resize
      rw [if_neg (by simp [heq])]
    refine ⟨img.rawResize ns, hres, Image.rawResize_size img ns, ?_⟩
    intro p hp hpx hq hpy
    obtain ⟨hpx1, hpx2⟩ := lt_min_iff.mp hpx
    obtain ⟨hpy1, hpy2⟩ := lt_min_iff.mp hpy
    have hinold : ¬ img.is_out_of_range p := by
      unfold Image.is_out_of_range
      push_neg
      exact ⟨hp, hq, hpx2, hpy2⟩
    have hidxold := Image.index_lt img p hinold ⟨hszx, hszy, hlen⟩
    have hidx : (p.x + p.y * ns.x).toNat < img.data.length := by
      rw [heq]
      exact hidxold
    rw [Image.rawResize_get img ns p hx hy hp hpx1 hq hpy1 hidx]
    rw [Image.get_in img p hinold, heq]
  · have hlt : ns.x < img.size.x := lt_of_le_of_ne hle heq
    have harea2 : ns.x * ns.y ≤ img.size.x * img.size.y := by
      rcases harea with h | h
      · exact absurd h heq
      · exact h
    have hfit : (ns.y - 1).toNat = 0 ∨
        ns.x.toNat + (ns.y - 1).toNat * ns.x.toNat ≤ img.data.length := by
      rcases le_or_lt ns.y 1 with h | h
      · left
        omega
      · right
        have e1 : ns.x.toNat + (ns.y - 1).toNat * ns.x.toNat =
            ns.y.toNat * ns.x.toNat := by
          have e0 : (ns.y - 1).toNat + 1 = ns.y.toNat := by omega
          calc ns.x.toNat + (ns.y - 1).toNat * ns.x.toNat
              = ((ns.y - 1).toNat + 1) * ns.x.toNat := by ring
            _ = ns.y.toNat * ns.x.toNat := by rw [e0]
        rw [e1, hlen]
        have e2 : ((ns.y.toNat * ns.x.toNat : Nat) : Int) = ns.y * ns.x := by
          push_cast [Int.toNat_of_nonneg hx, Int.toNat_of_nonneg hy]
          ring
        have e3 : (((img.size.x * img.size.y).toNat : Nat) : Int) =
            img.size.x * img.size.y :=
          Int.toNat_of_nonneg (mul_nonneg hszx hszy)
        have e4 : ((ns.y.toNat * ns.x.toNat : Nat) : Int) ≤
            (((img.size.x * img.size.y).toNat : Nat) : Int) := by
          rw [e2, e3]
          linarith [harea2]
        exact_mod_cast e4
    obtain ⟨d2, hloop, hlen2, hbelow, hwrit⟩ :=
      copyLoop_inv img.size img.data ns.x hx hlt ((ns.y - 1).toNat) 1
        img.data ns.x.toNat (le_refl 1) rfl (fun k hk => rfl)
        (one_mul ((ns.x.toNat : Nat) : Int)).symm hfit
    have hres : img.resize ns =
        some (Image.rawResize ⟨d2, img.size⟩ ns) := by
      unfold Image.resize
      rw [if_pos heq, hloop]
    refine ⟨_, hres, Image.rawResize_size _ ns, ?_⟩
    intro p hp hpx hq hpy
    obtain ⟨hpx1, hpx2⟩ := lt_min_iff.mp hpx
    obtain ⟨hpy1, hpy2⟩ := lt_min_iff.mp hpy
    have hinold : ¬ img.is_out_of_range p := by
      unfold Image.is_out_of_range
      push_neg
      exact ⟨hp, hq, hpx2, hpy2⟩
    have hidxold := Image.index_lt img p hinold ⟨hszx, hszy, hlen⟩
    have hmono : p.x + p.y * ns.x ≤ p.x + p.y * img.size.x := by
      have := mul_le_mul_of_nonneg_left hle hq
      linarith
    have hidx : (p.x + p.y * ns.x).toNat < img.data.length :=
      lt_of_le_of_lt (Int.toNat_le_toNat hmono) hidxold
    have hidx2 : (p.x + p.y * ns.x).toNat <
        (Image.mk d2 img.size).data.length := by
      show (p.x + p.y * ns.x).toNat < d2.length
      rw [hlen2]
      exact hidx
    have hr3 : (Image.rawResize ⟨d2, img.size⟩ ns).get p =
        d2.getD (p.x + p.y * ns.x).toNat Color.BLACK :=
      Image.rawResize_get ⟨d2, img.size⟩ ns p hx hy hp hpx1 hq hpy1 hidx2
    rw [hr3]
    have hidxeq : (p.x + p.y * ns.x).toNat =
        p.x.toNat + p.y.toNat * ns.x.toNat := by
      have e : p.x + p.y * ns.x =
          ((p.x.toNat + p.y.toNat * ns.x.toNat : Nat) : Int) := by
        push_cast [Int.toNat_of_nonneg hp, Int.toNat_of_nonneg hq,
          Int.toNat_of_nonneg hx]
        ring
      rw [e, Int.toNat_natCast]
    rcases eq_or_lt_of_le hq with hq0 | hq1
    · have hidx0 : (p.x + p.y * ns.x).toNat = p.x.toNat := by
        rw [hidxeq, ← hq0]
        simp
      rw [hidx0, hbelow p.x.toNat (by omega)]
      rw [Image.get_in img p hinold]
      congr 1
      rw [← hq0]
      simp
    · obtain ⟨r, hr⟩ : ∃ r : Nat, p.y.toNat = r + 1 :=
        ⟨p.y.toNat - 1, by omega⟩
      have hrm : r < (ns.y - 1).toNat := by omega
      have htn : p.x.toNat < ns.x.toNat := by omega
      have hpos : ns.x.toNat + r * ns.x.toNat + p.x.toNat =
          (p.x + p.y * ns.x).toNat := by
        rw [hidxeq, hr]
        ring
      have hW := hwrit r p.x.toNat hrm htn
      rw [← hpos, hW]
      have hx1 : ((p.x.toNat : Nat) : Int) = p.x := Int.toNat_of_nonneg hp
      have hy1 : 1 + (r : Int) = p.y := by omega
      have hv : (⟨(p.x.toNat : Int), 1 + (r : Int)⟩ : Vec2) = p := by
        rw [hx1, hy1]
      rw [hv]

/-- Witness for the amended C7: shrinking a 3×2 buffer to 2×3 (width
shrinks, equal area) succeeds and preserves the overlapping 2×2 region. -/
theorem claim_C7_amended_witness :
    ∃ img2, (Image.new 3 2).resize ⟨2, 3⟩ = some img2 ∧
      img2.size = ⟨2, 3⟩ ∧
      ∀ p : Vec2, 0 ≤ p.x → p.x < min (2 : Int) 3 →
        0 ≤ p.y → p.y < min (3 : Int) 2 →
        img2.get p = (Image.new 3 2).get p :=
  claim_C7_amended (Image.new 3 2) ⟨2, 3⟩ (Image.new_WF 3 2) (by decide)
    (by decide) (by decide) (Or.inr (by decide))
